import Mathlib

set_option maxRecDepth 40000

/-!
Verification of the mode-based call-rewriting transform of the
`vite-mode-logging` repository (file `src/templates/debug.ts`).

The development shallowly embeds the two core pieces:

* the Call Rewriter of `modeBasedLoggingPlugin` (lines 113-159): a global
  JavaScript regex replace with the pattern
  `\b([A-Z][A-Z0-9_]*)\s*\(((?:[^)(]|\([^)]*\))*)\)` whose callback turns a
  matched call into `console.log(<args>)` when the matched name is `ALL` or
  equals the upper-cased active mode, and into the empty string otherwise;

* the Mode Registry `ensureModeFunction` (lines 26-100): a read-modify-write
  cycle over the declarations artifact `debug.ts`, modelled here with the
  file system as `Option (List Char)` (`none` = the file does not exist).

Texts are modelled as `List Char`.  The JavaScript regexes are hand-compiled
into deterministic scanners; for the patterns used by the source this is an
exact translation, because every alternation and every greedy star in them is
first-character determined (the quantified classes never overlap with the
character that must follow), so the backtracking engine and the deterministic
scanner accept exactly the same strings and consume exactly the same spans.
-/

namespace VML

/-- JS `\s` (whitespace) restricted to its ASCII members: space, tab, line
feed, vertical tab, form feed, carriage return. -/
def isWS (c : Char) : Bool :=
  c.toNat = 32 || c.toNat = 9 || c.toNat = 10 || c.toNat = 11 || c.toNat = 12 || c.toNat = 13

/-- The regex class `[A-Z]`. -/
def isUpperAZ (c : Char) : Bool :=
  65 ≤ c.toNat && c.toNat ≤ 90

/-- The regex class `[0-9]`. -/
def isDigit09 (c : Char) : Bool :=
  48 ≤ c.toNat && c.toNat ≤ 57

/-- The regex class `[A-Z0-9_]` (tail characters of a matched mode name). -/
def isNameChar (c : Char) : Bool :=
  isUpperAZ c || isDigit09 c || c.toNat = 95

/-- The regex class `\w = [A-Za-z0-9_]`, used by the word boundary `\b`. -/
def isWordChar (c : Char) : Bool :=
  isUpperAZ c || isDigit09 c || c.toNat = 95 || (97 ≤ c.toNat && c.toNat ≤ 122)

/-- ASCII upper-casing on code points, as `String.prototype.toUpperCase`
acts on ASCII strings. -/
def upNat (x : Nat) : Nat :=
  if 97 ≤ x ∧ x ≤ 122 then x - 32 else x

/-- The effect of `mode.toUpperCase()` on a text (ASCII semantics). -/
def upperL (l : List Char) : List Char :=
  l.map (fun c => Char.ofNat (upNat c.toNat))

/-- Case-insensitive character comparison, as used by a regex `i` flag
(both sides canonicalised by upper-casing). -/
def ciEq (c d : Char) : Bool :=
  upNat c.toNat = upNat d.toNat

/-- Does `t` start with the literal `p`, comparing case-insensitively? -/
def litHereCI : List Char → List Char → Bool
  | [], _ => true
  | _ :: _, [] => false
  | p :: ps, c :: cs => ciEq p c && litHereCI ps cs

/-- Does `t` start with the literal `p` (exact comparison)? -/
def litHere : List Char → List Char → Bool
  | [], _ => true
  | _ :: _, [] => false
  | p :: ps, c :: cs => (p = c) && litHere ps cs

/-- Number of leading JS-whitespace characters (the span a greedy `\s*`
consumes). -/
def wsCount : List Char → Nat
  | [] => 0
  | c :: t => if isWS c then wsCount t + 1 else 0

/-- Index of the first occurrence of the literal `p` (as `indexOf` /
the position a regex search finds a plain literal at). -/
def findLit (p : List Char) : List Char → Option Nat
  | [] => if litHere p [] then some 0 else none
  | c :: t => if litHere p (c :: t) then some 0 else (findLit p t).map (· + 1)

/-- Index of the last occurrence of the literal `p`
(`String.prototype.lastIndexOf`). -/
def lastLitIdx (p : List Char) : List Char → Option Nat
  | [] => if litHere p [] then some 0 else none
  | c :: t =>
    match lastLitIdx p t with
    | some k => some (k + 1)
    | none => if litHere p (c :: t) then some 0 else none

/-- Index of the first occurrence of the character `ch`. -/
def findChar (ch : Char) : List Char → Option Nat
  | [] => none
  | c :: t => if c = ch then some 0 else (findChar ch t).map (· + 1)

/-- Splice `ins` into `s` before position `j`
(`s.slice(0, j) + ins + s.slice(j)`). -/
def insertAt (j : Nat) (ins s : List Char) : List Char :=
  s.take j ++ ins ++ s.drop j

/- ------------------------------------------------------------------ -/
/- Call Rewriter (modeBasedLoggingPlugin, debug.ts lines 113-159)      -/
/- ------------------------------------------------------------------ -/

/-- The word boundary `\b` before a word character: satisfied when there is
no previous character or the previous character is not a word character. -/
def boundaryOk : Option Char → Bool
  | none => true
  | some p => !isWordChar p

/-- Greedily take the maximal run of `[A-Z0-9_]` characters (the `[A-Z0-9_]*`
part of the capture `([A-Z][A-Z0-9_]*)`). -/
def takeName : List Char → List Char × List Char
  | [] => ([], [])
  | c :: t =>
    if isNameChar c then
      let p := takeName t
      (c :: p.1, p.2)
    else ([], c :: t)

/-- Scanner for the argument part `((?:[^)(]|\([^)]*\))*)\)` of the call
regex, starting just after the opening parenthesis.  The boolean state
records whether the scan is inside the one tolerated nested parenthesis
pair (`\([^)]*\)`, whose body may contain further `(` but no `)`).
Returns the argument text (without the final `)`) and the rest of the
input after the matching `)`; `none` when the pattern cannot close, in
which case the regex as a whole fails at this start position (no
backtracking alternative exists: every quantified class excludes the
character the continuation requires). -/
def argsLoop : Bool → List Char → Option (List Char × List Char)
  | _, [] => none
  | false, c :: t =>
    if c = (')') then some ([], t)
    else if c = ('(') then
      match argsLoop true t with
      | some p => some (c :: p.1, p.2)
      | none => none
    else
      match argsLoop false t with
      | some p => some (c :: p.1, p.2)
      | none => none
  | true, c :: t =>
    if c = (')') then
      match argsLoop false t with
      | some p => some (c :: p.1, p.2)
      | none => none
    else
      match argsLoop true t with
      | some p => some (c :: p.1, p.2)
      | none => none

/-- Attempt the call-site regex `\b([A-Z][A-Z0-9_]*)\s*\(((?:[^)(]|\([^)]*\))*)\)`
at the start of `s`, with `prev` the character preceding `s` (for `\b`).
Returns the captured mode name, the captured argument text, and the input
remaining after the match. -/
def matchCall (prev : Option Char) (s : List Char) : Option (List Char × List Char × List Char) :=
  match s with
  | [] => none
  | c :: t =>
    if boundaryOk prev && isUpperAZ c then
      match (takeName t).2.drop (wsCount (takeName t).2) with
      | [] => none
      | d :: r3 =>
        if d = ('(') then
          match argsLoop false r3 with
          | some q => some (c :: (takeName t).1, q.1, q.2)
          | none => none
        else none
    else none

/-- Replacement chosen by the callback of `code.replace` (debug.ts lines
134-149): `console.log(<args>)` when the name is `ALL` or equals the
upper-cased active mode, the empty string otherwise. -/
def replaceFor (act nm args : List Char) : List Char :=
  if nm = ("ALL").toList then ("console.log(").toList ++ args ++ [(')')]
  else if nm = act then ("console.log(").toList ++ args ++ [(')')]
  else []

/-- One left-to-right pass of the global regex replace, with explicit fuel:
at each position try the call regex; on a match emit the replacement and
continue after the match (the character before the continuation is then the
consumed `)`), otherwise copy one character and advance.  Each step consumes
at least one character of the input, so fuel equal to the input length always
suffices (`rewriteFuel_congr` below makes this precise). -/
def rewriteFuel (act : List Char) : Nat → Option Char → List Char → List Char
  | 0, _, s => s
  | f + 1, prev, s =>
    match matchCall prev s with
    | some q => replaceFor act q.1 q.2.1 ++ rewriteFuel act f (some (')')) q.2.2
    | none =>
      match s with
      | [] => []
      | c :: t => c :: rewriteFuel act f (some c) t

/-- The global regex replace over a whole text. -/
def rewriteLoop (act : List Char) (prev : Option Char) (s : List Char) : List Char :=
  rewriteFuel act s.length prev s

/-- The full replace of one `transform` invocation: the active mode is
upper-cased (line 128) and the scan starts at the beginning of the text
with no preceding character; `changed` records whether the result differs
from the input (`transformed !== code`, line 151). -/
def rewriteResult (mode : String) (s : List Char) : List Char × Bool :=
  let out := rewriteLoop (upperL mode.toList) none s
  (out, decide (out ≠ s))

/-- Does the id end with the given literal? -/
def endsWithLit (p s : List Char) : Bool :=
  litHere p (s.drop (s.length - p.length))

/-- The applicability filter `/\.(tsx?|jsx?)$/.test(id)` (line 122): the id
ends with one of the supported source extensions. -/
def extOk (id : List Char) : Bool :=
  endsWithLit ((".ts").toList) id || endsWithLit ((".tsx").toList) id ||
  endsWithLit ((".js").toList) id || endsWithLit ((".jsx").toList) id

/-- The artifact-exclusion test `id.includes('debug.ts')` (line 125). -/
def hasDebugTs (id : List Char) : Bool :=
  (findLit (("debug.ts").toList) id).isSome

/-- The `transform(code, id)` hook of the plugin (lines 120-157): returns
`none` (undefined, file left unchanged) for unsupported extensions, for ids
naming the declarations artifact, and when the rewrite changes nothing;
otherwise the rewritten text. -/
def transform (mode : String) (id code : List Char) : Option (List Char) :=
  if extOk id = false then none
  else if hasDebugTs id then none
  else
    let out := rewriteLoop (upperL mode.toList) none code
    if out = code then none else some out

/- ------------------------------------------------------------------ -/
/- Mode Registry (ensureModeFunction, debug.ts lines 26-100)           -/
/- ------------------------------------------------------------------ -/

/-- The mode name literal of the always-kept mode. -/
def allName : List Char := ("ALL").toList

/-- The literal `function`, head of the declaration regex. -/
def funLit : List Char := ("function").toList

/-- Attempt the declaration regex `function\s+NAME\s*\(` (case-insensitive,
debug.ts line 53) at the start of `t`; returns the consumed length.  For an
identifier-shaped `NAME` the regex is deterministic: `\s+` and `\s*` can
never trade characters with the literals around them. -/
def declHereLen (n : List Char) (t : List Char) : Option Nat :=
  if litHereCI funLit t then
    let t1 := t.drop funLit.length
    let w := wsCount t1
    if w = 0 then none
    else
      let t2 := t1.drop w
      if litHereCI n t2 then
        let t3 := t2.drop n.length
        let w2 := wsCount t3
        match (t3.drop w2).head? with
        | some c => if c = ('(') then some (funLit.length + w + n.length + w2 + 1) else none
        | none => none
      else none
  else none

/-- The test `new RegExp('function\\s+' + NAME + '\\s*\\(', 'i').test(content)`:
does the declaration pattern match anywhere in the text? -/
def declTest (n : List Char) : List Char → Bool
  | [] => false
  | c :: t => (declHereLen n (c :: t)).isSome || declTest n t

/-- The literal the global-block regex `(declare global \{[^}]*)(})` opens
with. -/
def dgLit : List Char := ("declare global \x7b").toList

/-- Position of the `}` captured by the first match of
`(declare global \{[^}]*)(})` (debug.ts lines 56, 86): the first `}` after
the first occurrence of `declare global {`.  `[^}]*` is greedy and cannot
cross a `}`, so the first regex match is exactly this span; if the literal
never occurs, or no `}` follows it, the regex does not match at all. -/
def blockMatch (s : List Char) : Option Nat :=
  match findLit dgLit s with
  | none => none
  | some p => (findChar ('\x7d') (s.drop (p + dgLit.length))).map (· + (p + dgLit.length))

/-- The declaration line inserted before the closing `}` of the global block
(the `$1  function NAME(message: string): void;\n$2` replacement,
lines 58 and 88). -/
def declLineFor (n : List Char) : List Char :=
  ("  function ").toList ++ n ++ ("(message: string): void;\n").toList

/-- The fresh global block prepended when no block exists (lines 61-66). -/
def newBlockFor (n : List Char) : List Char :=
  ("\ndeclare global \x7b\n").toList ++ declLineFor n ++ ("\x7d\n").toList

/-- The runtime stub line is this literal followed by the rest of the
assignment; this initial segment identifies a stub for a given name. -/
def stubLit (n : List Char) : List Char :=
  ("(globalThis as any).").toList ++ n ++ (" = function(").toList

/-- The full runtime stub line
`(globalThis as any).NAME = function(_message: string) { /* no-op */ };\n`
(lines 70 and 91). -/
def runtimeImplFor (n : List Char) : List Char :=
  stubLit n ++ ("_message: string) \x7b /* no-op */ \x7d;\n").toList

/-- The literal `export {};` searched by `content.lastIndexOf` (lines 71, 92). -/
def exportLit : List Char := ("export \x7b\x7d;").toList

/-- The default artifact content synthesised when the file cannot be read
(debug.ts lines 35-46). -/
def defaultContent : List Char :=
  ("// Mode-based logging helper functions that will be transformed by the build process\n// These functions are declared globally and can be used anywhere without imports\n\ndeclare global \x7b\n  function ALL(message: string): void;\n\x7d\n\n// Make the functions available at runtime (though they\x27ll be transformed)\n(globalThis as any).ALL = function(_message: string) \x7b /* no-op */ \x7d;\n\nexport \x7b\x7d; // Make this a module\n").toList

/-- The declaration insertion of lines 54-67: insert the declaration of `n`
before the closing `}` of the global block, or prepend a new block. -/
def insertDecl (n : List Char) (c : List Char) : List Char :=
  match blockMatch c with
  | some j => insertAt j (declLineFor n) c
  | none => newBlockFor n ++ c

/-- The stub insertion of lines 69-77: insert the runtime stub before the
last `export {};`, or append stub and export marker. -/
def insertStub (n : List Char) (cA : List Char) : List Char :=
  match lastLitIdx exportLit cA with
  | some e => insertAt e (runtimeImplFor n) cA
  | none => cA ++ runtimeImplFor n ++ ("\nexport \x7b\x7d;\n").toList

/-- The whole mutation of lines 54-80. -/
def addModeTo (n : List Char) (c : List Char) : List Char :=
  insertStub n (insertDecl n c)

/-- The mutation of lines 85-97 (re-read content in hand): insert the `ALL`
declaration only when a global block exists, and the `ALL` stub only when
an `export {};` marker exists; the file is then written unconditionally. -/
def addAllTo (c : List Char) : List Char :=
  let c1 :=
    match blockMatch c with
    | some j => insertAt j (declLineFor allName) c
    | none => c
  match lastLitIdx exportLit c1 with
  | some e => insertAt e (runtimeImplFor allName) c1
  | none => c1

/-- Content an artifact read yields: the file content when present, the
synthesised default otherwise (the guarded read of debug.ts lines 30-47). -/
def readContent : Option (List Char) → List Char
  | some c => c
  | none => defaultContent

/-- The procedure `ensureModeFunction(mode)` (debug.ts lines 26-100) acting on the
declarations-artifact file state (`none` = file absent).  The outer `none`
models the uncaught exception thrown by the unguarded re-read of line 85
when the file does not exist; a `some fs` is the file state after a normal
return.  The first read (lines 30-47) is guarded and falls back to
`defaultContent`. -/
def ensureModeFunction (mode : String) (fs0 : Option (List Char)) :
    Option (Option (List Char)) :=
  let content0 := readContent fs0
  let n := upperL mode.toList
  let st1 : List Char × Option (List Char) :=
    if declTest n content0 then (content0, fs0)
    else
      let c1 := addModeTo n content0
      (c1, some c1)
  if declTest allName st1.1 then some st1.2
  else
    match st1.2 with
    | none => none
    | some c => some (some (addAllTo c))

/-- A sequence of `ensureModeFunction` calls against the same artifact
file, propagating a thrown exception. -/
def ensureSeq : List String → Option (List Char) → Option (Option (List Char))
  | [], fs => some fs
  | m :: ms, fs =>
    match ensureModeFunction m fs with
    | none => none
    | some fs1 => ensureSeq ms fs1

/-- A mode-name argument of the shape the spec data model describes: a non-empty
identifier over ASCII letters, digits and underscores. -/
def validMode (m : String) : Bool :=
  !m.toList.isEmpty && m.toList.all (fun c => isWordChar c)

/-- Shape of an upper-cased registered name: non-empty, characters from
`[A-Z0-9_]`. -/
def validName (n : List Char) : Bool :=
  !n.isEmpty && n.all isNameChar

/-- The data-model invariant of a declarations artifact: absent (a read
synthesises the default) or declaring the always mode `ALL`. -/
def artifactOk : Option (List Char) → Bool
  | none => true
  | some c => declTest allName c

/-- Presence of the runtime stub of `n`, identified by the initial segment
of its assignment line. -/
def stubTest (n : List Char) (s : List Char) : Bool :=
  (findLit (stubLit n) s).isSome

/-- The character preceding scan position `a` (start of text: `prev`). -/
def aprev (prev : Option Char) (s : List Char) (a : Nat) : Option Char :=
  if a = 0 then prev else s.get? (a - 1)

/-- The call regex attempted at position `a` of a whole text. -/
def matchAtPos (s : List Char) (a : Nat) : Option (List Char × List Char × List Char) :=
  matchCall (aprev none s a) (s.drop a)

/-- Decidable form of `the text contains no call site`: the call regex
fails at every position. -/
def noCallSiteB (s : List Char) : Bool :=
  (List.range s.length).all (fun a => (matchAtPos s a).isNone)

/- ------------------------------------------------------------------ -/
/- Lemmas about the Call Rewriter                                      -/
/- ------------------------------------------------------------------ -/

theorem argsLoop_length : ∀ (l : List Char) (b : Bool) (a r : List Char),
    argsLoop b l = some (a, r) → r.length < l.length := by
  intro l
  induction l with
  | nil => intro b a r hq; simp [argsLoop] at hq
  | cons x xs ih =>
    intro b a r hq
    cases b with
    | false =>
      simp only [argsLoop] at hq
      split at hq
      · cases hq; simp
      · split at hq
        · split at hq
          · rename_i p hp
            cases hq
            have := ih true p.1 p.2 (by rw [hp])
            simp only [List.length_cons]
            omega
          · exact absurd hq (by simp)
        · split at hq
          · rename_i p hp
            cases hq
            have := ih false p.1 p.2 (by rw [hp])
            simp only [List.length_cons]
            omega
          · exact absurd hq (by simp)
    | true =>
      simp only [argsLoop] at hq
      split at hq
      · split at hq
        · rename_i p hp
          cases hq
          have := ih false p.1 p.2 (by rw [hp])
          simp only [List.length_cons]
          omega
        · exact absurd hq (by simp)
      · split at hq
        · rename_i p hp
          cases hq
          have := ih true p.1 p.2 (by rw [hp])
          simp only [List.length_cons]
          omega
        · exact absurd hq (by simp)

theorem takeName_drop_length (l : List Char) : (takeName l).2.length ≤ l.length := by
  induction l with
  | nil => simp [takeName]
  | cons x xs ih =>
    by_cases hx : isNameChar x
    · simp only [takeName, hx, if_true]
      simp only [List.length_cons]
      omega
    · simp [takeName, hx]

/-- A successful regex match consumes at least one input character. -/
theorem matchCall_consumes {prev : Option Char} {s nm args rest : List Char}
    (h : matchCall prev s = some (nm, args, rest)) : rest.length < s.length := by
  cases s with
  | nil => simp [matchCall] at h
  | cons c t =>
    simp only [matchCall] at h
    split at h
    · split at h
      · exact absurd h (by simp)
      · rename_i d r3 hd
        split at h
        · split at h
          · rename_i q ha
            cases h
            have h1 := argsLoop_length r3 false q.1 q.2 (by rw [ha])
            have h2 : r3.length + 1 ≤ (takeName t).2.length := by
              have := congrArg List.length hd
              simp only [List.length_drop, List.length_cons] at this
              omega
            have h3 := takeName_drop_length t
            simp only [List.length_cons]
            omega
          · exact absurd h (by simp)
        · exact absurd h (by simp)
    · exact absurd h (by simp)

theorem rewriteFuel_nil (act : List Char) : ∀ (f : Nat) (prev : Option Char),
    rewriteFuel act f prev [] = [] := by
  intro f prev
  cases f with
  | zero => rfl
  | succ f => simp [rewriteFuel, matchCall]

/-- Any fuel at least the input length computes the same result: the loop
is insensitive to the exact fuel once it can run to completion. -/
theorem rewriteFuel_congr (act : List Char) : ∀ (f g : Nat) (prev : Option Char) (s : List Char),
    s.length ≤ f → s.length ≤ g →
    rewriteFuel act f prev s = rewriteFuel act g prev s := by
  intro f
  induction f with
  | zero =>
    intro g prev s hf hg
    have : s = [] := by
      cases s with
      | nil => rfl
      | cons c t => simp at hf
    subst this
    rw [rewriteFuel_nil, rewriteFuel_nil]
  | succ f ih =>
    intro g prev s hf hg
    cases s with
    | nil => rw [rewriteFuel_nil, rewriteFuel_nil]
    | cons c t =>
      cases g with
      | zero => simp at hg
      | succ g =>
        simp only [rewriteFuel]
        cases hm : matchCall prev (c :: t) with
        | some q =>
          have hlt : q.2.2.length < (c :: t).length := by
            obtain ⟨nm, args, rest⟩ := q
            exact matchCall_consumes hm
          simp only [List.length_cons] at hlt hf hg
          show replaceFor act q.1 q.2.1 ++ rewriteFuel act f (some (')')) q.2.2 =
            replaceFor act q.1 q.2.1 ++ rewriteFuel act g (some (')')) q.2.2
          congr 1
          exact ih g (some (')')) q.2.2 (by omega) (by omega)
        | none =>
          simp only [List.length_cons] at hf hg
          show c :: rewriteFuel act f (some c) t = c :: rewriteFuel act g (some c) t
          congr 1
          exact ih g (some c) t (by omega) (by omega)

/-- Unfolding of the replace loop at a match. -/
theorem rewriteLoop_match {prev : Option Char} {s nm args rest : List Char} (act : List Char)
    (h : matchCall prev s = some (nm, args, rest)) :
    rewriteLoop act prev s =
      replaceFor act nm args ++ rewriteLoop act (some (')')) rest := by
  have hlt : rest.length < s.length := matchCall_consumes h
  cases s with
  | nil => simp at hlt
  | cons c t =>
    simp only [rewriteLoop, List.length_cons, rewriteFuel, h]
    congr 1
    exact rewriteFuel_congr act t.length rest.length (some (')')) rest
      (by simp at hlt; omega) (le_refl _)

/-- Unfolding of the replace loop when the regex fails at the current
position: the character is copied and the scan moves on. -/
theorem rewriteLoop_nomatch {prev : Option Char} {c : Char} {t : List Char} (act : List Char)
    (h : matchCall prev (c :: t) = none) :
    rewriteLoop act prev (c :: t) = c :: rewriteLoop act (some c) t := by
  simp only [rewriteLoop, List.length_cons, rewriteFuel, h]

theorem rewriteLoop_nil (act : List Char) (prev : Option Char) :
    rewriteLoop act prev [] = [] := by
  simp only [rewriteLoop, List.length_nil]
  rfl

theorem takeName_all (l : List Char) : (takeName l).1.all isNameChar = true := by
  induction l with
  | nil => simp [takeName]
  | cons c t ih =>
    by_cases hc : isNameChar c
    · simp [takeName, hc, ih]
    · simp [takeName, hc]

/-- The captured name of any regex match is a non-empty `[A-Z][A-Z0-9_]*`
identifier. -/
theorem matchCall_validName {prev : Option Char} {s nm args rest : List Char}
    (h : matchCall prev s = some (nm, args, rest)) : validName nm = true := by
  cases s with
  | nil => simp [matchCall] at h
  | cons c t =>
    simp only [matchCall] at h
    split at h
    · rename_i hb
      split at h
      · exact absurd h (by simp)
      · split at h
        · split at h
          · rename_i q ha
            cases h
            have hb2 : isUpperAZ c = true := by
              simp only [Bool.and_eq_true] at hb
              exact hb.2
            have hcn : isNameChar c = true := by simp [isNameChar, hb2]
            simp [validName, hcn, takeName_all]
          · exact absurd h (by simp)
        · exact absurd h (by simp)
    · exact absurd h (by simp)

theorem nameChar_up {c : Char} (h : isNameChar c = true) : Char.ofNat (upNat c.toNat) = c := by
  have hx : ¬(97 ≤ c.toNat ∧ c.toNat ≤ 122) := by
    simp only [isNameChar, isUpperAZ, isDigit09, Bool.or_eq_true, Bool.and_eq_true,
      decide_eq_true_eq] at h
    omega
  rw [upNat, if_neg hx, Char.ofNat_toNat]

/-- Upper-casing fixes a name made of `[A-Z0-9_]` characters. -/
theorem upperL_id {n : List Char} (h : n.all isNameChar = true) : upperL n = n := by
  induction n with
  | nil => rfl
  | cons c t ih =>
    simp only [List.all_cons, Bool.and_eq_true] at h
    simp only [upperL, List.map_cons]
    rw [nameChar_up h.1]
    have := ih h.2
    simp only [upperL] at this
    rw [this]

theorem isWS_not_nameChar {c : Char} (h : isWS c = true) : isNameChar c = false := by
  rw [Bool.eq_false_iff]
  intro hc
  simp only [isWS, Bool.or_eq_true, decide_eq_true_eq] at h
  simp only [isNameChar, isUpperAZ, isDigit09, Bool.or_eq_true, Bool.and_eq_true,
    decide_eq_true_eq] at hc
  omega

/-- The greedy `[A-Z0-9_]*` consumes exactly a run that the next character
cannot extend. -/
theorem takeName_exact {nmT r : List Char} (h1 : nmT.all isNameChar = true)
    (h2 : ∀ d, r.head? = some d → isNameChar d = false) :
    takeName (nmT ++ r) = (nmT, r) := by
  induction nmT with
  | nil =>
    cases r with
    | nil => rfl
    | cons d t =>
      have := h2 d rfl
      simp [takeName, this]
  | cons c t ih =>
    simp only [List.all_cons, Bool.and_eq_true] at h1
    simp [takeName, h1.1, ih h1.2]

/-- The greedy `\s*` consumes exactly a whitespace run that the next
character cannot extend. -/
theorem wsCount_exact {w : List Char} {d : Char} {r : List Char}
    (h1 : w.all isWS = true) (h2 : isWS d = false) :
    wsCount (w ++ d :: r) = w.length := by
  induction w with
  | nil => simp [wsCount, h2]
  | cons c t ih =>
    simp only [List.all_cons, Bool.and_eq_true] at h1
    simp [wsCount, h1.1, ih h1.2]

/-- The call regex on input of the shape `NAME<ws>(<rest>`: the match
succeeds exactly when the argument scan closes, whitespace between the
name and the parenthesis notwithstanding. -/
theorem matchCall_at_shape (prev : Option Char) (c : Char) (nmT ws rest0 : List Char)
    (hb : boundaryOk prev = true) (hc : isUpperAZ c = true)
    (hnm : nmT.all isNameChar = true) (hw : ws.all isWS = true) :
    matchCall prev (c :: (nmT ++ (ws ++ ('(') :: rest0))) =
      match argsLoop false rest0 with
      | some q => some (c :: nmT, q.1, q.2)
      | none => none := by
  have ht : takeName (nmT ++ (ws ++ ('(') :: rest0)) = (nmT, ws ++ ('(') :: rest0) := by
    apply takeName_exact hnm
    intro d hd
    cases ws with
    | nil =>
      simp only [List.nil_append, List.head?_cons, Option.some.injEq] at hd
      rw [← hd]
      decide
    | cons w wst =>
      simp only [List.cons_append, List.head?_cons, Option.some.injEq] at hd
      have hw1 : isWS w = true := by
        simp only [List.all_cons, Bool.and_eq_true] at hw
        exact hw.1
      rw [← hd]
      exact isWS_not_nameChar hw1
  have hws : wsCount (ws ++ ('(') :: rest0) = ws.length := wsCount_exact hw (by decide)
  have hdrop : (ws ++ ('(') :: rest0).drop ws.length = ('(') :: rest0 := List.drop_left ws _
  simp only [matchCall, hb, hc, Bool.and_self, if_true, ht, hws, hdrop]

/-- A separator that is neither whitespace nor a name character nor `(`
makes the regex fail at this start position. -/
theorem matchCall_sep_shape (prev : Option Char) (c d : Char) (nmT r : List Char)
    (hnm : nmT.all isNameChar = true)
    (hd1 : isWS d = false) (hd2 : isNameChar d = false) (hd3 : ¬(d = ('('))) :
    matchCall prev (c :: (nmT ++ d :: r)) = none := by
  by_cases hb : (boundaryOk prev && isUpperAZ c) = true
  · have ht : takeName (nmT ++ d :: r) = (nmT, d :: r) := by
      apply takeName_exact hnm
      intro e he
      simp only [List.head?_cons, Option.some.injEq] at he
      rw [← he]
      exact hd2
    have hws : wsCount (d :: r) = 0 := by simp [wsCount, hd1]
    simp only [matchCall, hb, if_true, ht, hws, List.drop_zero]
    rw [if_neg hd3]
  · simp only [matchCall]
    rw [if_neg hb]

/- ------------------------------------------------------------------ -/
/- Claims about the Call Rewriter                                      -/
/- ------------------------------------------------------------------ -/

/-- C1: at every call site matched by the rewriter, a mode name that equals
the active mode after both are upper-cased is replaced by a standard
logging call `console.log` carrying the argument text unchanged, and a
mode name that is neither the active mode nor the always literal `ALL`
is replaced by the empty string (the matched call expression is deleted);
in both cases the scan continues after the match. -/
theorem matched_mode_rewritten_other_deleted (mode : String) (prev : Option Char)
    (s nm args rest : List Char)
    (h : matchCall prev s = some (nm, args, rest)) :
    (upperL nm = upperL mode.toList →
      rewriteLoop (upperL mode.toList) prev s =
        ("console.log(").toList ++ args ++ [(')')] ++
          rewriteLoop (upperL mode.toList) (some (')')) rest) ∧
    (nm ≠ ("ALL").toList → upperL nm ≠ upperL mode.toList →
      rewriteLoop (upperL mode.toList) prev s =
        rewriteLoop (upperL mode.toList) (some (')')) rest) := by
  have hvn : validName nm = true := matchCall_validName h
  have hall : nm.all isNameChar = true := by
    simp only [validName, Bool.and_eq_true] at hvn
    exact hvn.2
  have hup : upperL nm = nm := upperL_id hall
  constructor
  · intro hci
    have hnm : nm = upperL mode.toList := by rw [← hup, hci]
    rw [rewriteLoop_match _ h]
    by_cases hA : nm = ("ALL").toList
    · rw [replaceFor, if_pos hA]
    · rw [replaceFor, if_neg hA, if_pos hnm]
  · intro hne1 hne2
    have hnm : nm ≠ upperL mode.toList := by rw [← hup]; exact hne2
    rw [rewriteLoop_match _ h]
    rw [replaceFor, if_neg hne1, if_neg hnm]
    simp

/-- C1 witness: with active mode `dev`, the matched site `DEV(x)` becomes
`console.log(x)` and the matched site `FOO(y)` is deleted. -/
theorem matched_mode_rewritten_other_deleted_witness :
    rewriteLoop (upperL ("dev").toList) none (("DEV(x)").toList) =
      ("console.log(").toList ++ ("x").toList ++ [(')')] ++
        rewriteLoop (upperL ("dev").toList) (some (')')) [] ∧
    rewriteLoop (upperL ("dev").toList) none (("FOO(y)").toList) =
      rewriteLoop (upperL ("dev").toList) (some (')')) [] :=
  ⟨(matched_mode_rewritten_other_deleted ("dev") none (("DEV(x)").toList)
      (("DEV").toList) (("x").toList) [] (by decide)).1 (by decide),
   (matched_mode_rewritten_other_deleted ("dev") none (("FOO(y)").toList)
      (("FOO").toList) (("y").toList) [] (by decide)).2 (by decide) (by decide)⟩

/-- C2: at every call site whose mode name is the always literal `ALL`, and
under every active mode, the call is replaced by a standard logging call
with the argument text unchanged; it is never deleted. -/
theorem all_mode_always_rewritten (mode : String) (prev : Option Char)
    (s args rest : List Char)
    (h : matchCall prev s = some (("ALL").toList, args, rest)) :
    rewriteLoop (upperL mode.toList) prev s =
      ("console.log(").toList ++ args ++ [(')')] ++
        rewriteLoop (upperL mode.toList) (some (')')) rest := by
  rw [rewriteLoop_match _ h, replaceFor, if_pos rfl]

/-- C2 witness: `ALL(z)` is rewritten to `console.log(z)` under active mode
`prod`. -/
theorem all_mode_always_rewritten_witness :
    rewriteLoop (upperL ("prod").toList) none (("ALL(z)").toList) =
      ("console.log(").toList ++ ("z").toList ++ [(')')] ++
        rewriteLoop (upperL ("prod").toList) (some (')')) [] :=
  all_mode_always_rewritten ("prod") none (("ALL(z)").toList)
    (("z").toList) [] (by decide)

/-- C3: on `DEV("hello"); DEBUG("hi"); ALL("always");` with active mode
`dev`, the rewrite yields exactly
`console.log("hello"); ; console.log("always");` (the `DEBUG` call deleted
leaving its statement terminator, `DEV` and `ALL` rewritten) and reports
`changed = true`. -/
theorem scenario_dev_debug_all :
    rewriteResult ("dev") (("DEV(\"hello\"); DEBUG(\"hi\"); ALL(\"always\");").toList) =
      ((("console.log(\"hello\"); ; console.log(\"always\");").toList), true) := by
  decide

/-- C6: a position where the call regex fails (in particular a candidate
whose parentheses are malformed or nested beyond the one-level tolerance)
is skipped: its character is copied unchanged and the scan continues,
never aborting; concretely, in `DEV((a); ALL(x);` the malformed `DEV`
candidate is left untouched while the scan still rewrites the later
`ALL(x)` call. -/
theorem malformed_candidate_skipped :
    (∀ (act : List Char) (prev : Option Char) (c : Char) (t : List Char),
        matchCall prev (c :: t) = none →
        rewriteLoop act prev (c :: t) = c :: rewriteLoop act (some c) t) ∧
    rewriteResult ("dev") (("DEV((a); ALL(x);").toList) =
      ((("DEV((a); console.log(x);").toList), true) := by
  constructor
  · intro act prev c t h
    exact rewriteLoop_nomatch act h
  · decide

/-- C6 witness: a closed instance of the skip rule at a lone `(`. -/
theorem malformed_candidate_skipped_witness :
    rewriteLoop (("DEV").toList) none (("(x").toList) =
      ('(') :: rewriteLoop (("DEV").toList) (some ('(')) (("x").toList) :=
  malformed_candidate_skipped.1 (("DEV").toList) none ('(') (("x").toList) (by decide)

/-- C7 counterexample: the claim says an identifier separated from `(` by
any character (for example whitespace) is not rewritten, but the regex
allows `\s*` between the name and `(`: with active mode `dev` the input
`DEV ("hi");` (name and parenthesis separated by a space) is rewritten to
`console.log("hi");` and reported as changed. -/
theorem ws_separated_site_is_rewritten :
    (rewriteResult ("dev") (("DEV (\"hi\");").toList)).1 =
      ("console.log(\"hi\");").toList ∧
    (rewriteResult ("dev") (("DEV (\"hi\");").toList)).2 = true := by
  decide

/-- C7 (amended): a call site is recognised when a token matching the mode
name pattern (`[A-Z][A-Z0-9_]*`) is followed by `(` with only whitespace
characters possibly intervening; an identifier separated from `(` by any
non-whitespace character that cannot extend the identifier is not
recognised. -/
theorem callSite_separation :
    (∀ (prev : Option Char) (c : Char) (nmT ws args rest0 rest1 : List Char),
        boundaryOk prev = true → isUpperAZ c = true →
        nmT.all isNameChar = true → ws.all isWS = true →
        argsLoop false rest0 = some (args, rest1) →
        matchCall prev (c :: (nmT ++ (ws ++ ('(') :: rest0))) =
          some (c :: nmT, args, rest1)) ∧
    (∀ (prev : Option Char) (c d : Char) (nmT r : List Char),
        nmT.all isNameChar = true →
        isWS d = false → isNameChar d = false → ¬(d = ('(')) →
        matchCall prev (c :: (nmT ++ d :: r)) = none) := by
  constructor
  · intro prev c nmT ws args rest0 rest1 hb hc hnm hw ha
    rw [matchCall_at_shape prev c nmT ws rest0 hb hc hnm hw, ha]
  · intro prev c d nmT r hnm hd1 hd2 hd3
    exact matchCall_sep_shape prev c d nmT r hnm hd1 hd2 hd3

/-- C7 witness: `DEV ("x");`-style whitespace separation is matched, and a
`=` separator is not. -/
theorem callSite_separation_witness :
    matchCall none (('D') :: ((("EV").toList) ++ (((" ").toList) ++ ('(') :: (("x);").toList))) ) =
      some (("DEV").toList, ("x").toList, (";").toList) ∧
    matchCall none (('D') :: ((("EV").toList) ++ ('=') :: (("(x)").toList))) = none :=
  ⟨callSite_separation.1 none ('D') (("EV").toList) ((" ").toList) (("x").toList)
      (("x);").toList) ((";").toList) (by decide) (by decide) (by decide) (by decide) (by decide),
   callSite_separation.2 none ('D') ('=') (("EV").toList) (("(x)").toList)
      (by decide) (by decide) (by decide) (by decide)⟩

/-- C8: a text at which the call regex fails at every position is returned
unchanged under every active mode, and the change flag is false. -/
theorem no_call_site_no_change (mode : String) (s : List Char)
    (h : noCallSiteB s = true) :
    rewriteResult mode s = (s, false) := by
  have key : ∀ (t : List Char) (prev : Option Char),
      (∀ a : Nat, matchCall (aprev prev t a) (t.drop a) = none) →
      rewriteLoop (upperL mode.toList) prev t = t := by
    intro t
    induction t with
    | nil => intro prev _; exact rewriteLoop_nil _ _
    | cons c tt ih =>
      intro prev hall
      have h0 : matchCall prev (c :: tt) = none := by
        have := hall 0
        simpa [aprev] using this
      rw [rewriteLoop_nomatch _ h0]
      congr 1
      apply ih (some c)
      intro a
      have := hall (a + 1)
      cases a with
      | zero => simpa [aprev] using this
      | succ b => simpa [aprev] using this
  have hnone : ∀ a : Nat, matchCall (aprev none s a) (s.drop a) = none := by
    intro a
    by_cases ha : a < s.length
    · have := (List.all_eq_true.mp h) a (List.mem_range.mpr ha)
      simpa [matchAtPos, Option.isNone_iff_eq_none] using this
    · have hdrop : s.drop a = [] := List.drop_eq_nil_of_le (by omega)
      rw [hdrop]
      rfl
  have hout := key s none hnone
  show (rewriteLoop (upperL mode.toList) none s,
    decide (rewriteLoop (upperL mode.toList) none s ≠ s)) = (s, false)
  rw [hout]
  simp

/-- C8 witness: `const x = 1;` contains no call site and is unchanged. -/
theorem no_call_site_no_change_witness :
    rewriteResult ("prod") (("const x = 1;").toList) =
      ((("const x = 1;").toList), false) :=
  no_call_site_no_change ("prod") (("const x = 1;").toList) (by decide)

/-- C9: the transform hook returns the file unchanged (`none`) for every id
that does not end in a supported source extension, and for every id naming
the declarations artifact (`debug.ts`), whatever the content and the
active mode. -/
theorem non_candidate_files_untouched (mode : String) (id code : List Char)
    (h : extOk id = false ∨ hasDebugTs id = true) :
    transform mode id code = none := by
  rcases h with h | h
  · simp [transform, h]
  · by_cases he : extOk id = false
    · simp [transform, he]
    · simp [transform, he, h]

/-- C9 witness: a css file and the artifact file are both returned
unchanged. -/
theorem non_candidate_files_untouched_witness :
    transform ("dev") (("a/style.css").toList) (("DEV(1)").toList) = none ∧
    transform ("dev") (("src/debug.ts").toList) (("DEV(1)").toList) = none :=
  ⟨non_candidate_files_untouched ("dev") (("a/style.css").toList) (("DEV(1)").toList)
      (Or.inl (by decide)),
   non_candidate_files_untouched ("dev") (("src/debug.ts").toList) (("DEV(1)").toList)
      (Or.inr (by decide))⟩

/- ------------------------------------------------------------------ -/
/- Lemmas about the Mode Registry                                      -/
/- ------------------------------------------------------------------ -/

theorem ciEq_refl (c : Char) : ciEq c c = true := by simp [ciEq]

theorem litHereCI_self (p u : List Char) : litHereCI p (p ++ u) = true := by
  induction p with
  | nil => rfl
  | cons c t ih => simp [litHereCI, ciEq_refl, ih]

theorem litHere_self (p u : List Char) : litHere p (p ++ u) = true := by
  induction p with
  | nil => rfl
  | cons c t ih => simp [litHere, ih]

theorem litHereCI_le {p t : List Char} (h : litHereCI p t = true) : p.length ≤ t.length := by
  induction p generalizing t with
  | nil => simp
  | cons c ps ih =>
    cases t with
    | nil => simp [litHereCI] at h
    | cons d ts =>
      simp only [litHereCI, Bool.and_eq_true] at h
      have := ih h.2
      simp only [List.length_cons]
      omega

theorem litHereCI_append {p t : List Char} (u : List Char) (h : litHereCI p t = true) :
    litHereCI p (t ++ u) = true := by
  induction p generalizing t with
  | nil => rfl
  | cons c ps ih =>
    cases t with
    | nil => simp [litHereCI] at h
    | cons d ts =>
      simp only [litHereCI, Bool.and_eq_true, List.cons_append] at h ⊢
      exact ⟨h.1, ih h.2⟩

theorem litHereCI_of_append {p A X : List Char} (hl : p.length ≤ A.length)
    (h : litHereCI p (A ++ X) = true) : litHereCI p A = true := by
  induction p generalizing A with
  | nil => rfl
  | cons c ps ih =>
    cases A with
    | nil => simp at hl
    | cons a as =>
      simp only [List.cons_append, litHereCI, Bool.and_eq_true] at h ⊢
      simp only [List.length_cons] at hl
      exact ⟨h.1, ih (by omega) h.2⟩

theorem litHereCI_mem {p A : List Char} (h : litHereCI p A = true) (hlen : A.length ≤ p.length) :
    ∀ ch ∈ A, ∃ d ∈ p, ciEq d ch = true := by
  induction p generalizing A with
  | nil =>
    cases A with
    | nil => simp
    | cons a as => simp at hlen
  | cons d ps ih =>
    cases A with
    | nil => simp
    | cons a as =>
      simp only [litHereCI, Bool.and_eq_true] at h
      simp only [List.length_cons] at hlen
      intro ch hch
      rcases List.mem_cons.mp hch with rfl | hch2
      · exact ⟨d, List.mem_cons_self _ _, h.1⟩
      · obtain ⟨e, he, hci⟩ := ih h.2 (by omega) ch hch2
        exact ⟨e, List.mem_cons_of_mem _ he, hci⟩

theorem litHere_iff_append {p t : List Char} : litHere p t = true ↔ ∃ r, t = p ++ r := by
  induction p generalizing t with
  | nil => simp [litHere]
  | cons c ps ih =>
    cases t with
    | nil =>
      simp only [litHere]
      constructor
      · intro h; exact absurd h (by simp)
      · rintro ⟨r, hr⟩; exact absurd hr (by simp)
    | cons d ts =>
      simp only [litHere, Bool.and_eq_true, decide_eq_true_eq]
      constructor
      · rintro ⟨rfl, h2⟩
        obtain ⟨r, rfl⟩ := ih.mp h2
        exact ⟨r, rfl⟩
      · rintro ⟨r, hr⟩
        simp only [List.cons_append, List.cons.injEq] at hr
        exact ⟨hr.1.symm, ih.mpr ⟨r, hr.2⟩⟩

theorem litHere_get {p t : List Char} (h : litHere p t = true) {k : Nat} (hk : k < p.length) :
    t.get? k = p.get? k := by
  obtain ⟨r, rfl⟩ := litHere_iff_append.mp h
  exact List.get?_append hk

theorem litHere_le {p t : List Char} (h : litHere p t = true) : p.length ≤ t.length := by
  obtain ⟨r, rfl⟩ := litHere_iff_append.mp h
  simp

theorem wsCount_le (t : List Char) : wsCount t ≤ t.length := by
  induction t with
  | nil => simp [wsCount]
  | cons c ts ih =>
    by_cases hc : isWS c = true
    · simp only [wsCount, hc, if_true, List.length_cons]
      omega
    · simp [wsCount, hc]

theorem wsTake_all (t : List Char) : ∀ c ∈ t.take (wsCount t), isWS c = true := by
  induction t with
  | nil => simp
  | cons c ts ih =>
    by_cases hc : isWS c = true
    · simp only [wsCount, hc, if_true, List.take_succ_cons]
      intro x hx
      rcases List.mem_cons.mp hx with rfl | hx2
      · exact hc
      · exact ih x hx2
    · simp [wsCount, hc]

theorem declHereLen_nil (n : List Char) : declHereLen n [] = none := by
  rw [declHereLen, if_neg]
  intro hx
  exact absurd hx (by decide)

theorem declTest_iff {n s : List Char} :
    declTest n s = true ↔ ∃ a, (declHereLen n (s.drop a)).isSome = true := by
  induction s with
  | nil =>
    simp only [declTest]
    constructor
    · intro h; exact absurd h (by simp)
    · rintro ⟨a, ha⟩
      rw [List.drop_nil, declHereLen_nil] at ha
      exact absurd ha (by simp)
  | cons c t ih =>
    simp only [declTest, Bool.or_eq_true]
    constructor
    · rintro (h | h)
      · exact ⟨0, by simpa using h⟩
      · obtain ⟨a, ha⟩ := ih.mp h
        exact ⟨a + 1, by simpa using ha⟩
    · rintro ⟨a, ha⟩
      cases a with
      | zero => left; simpa using ha
      | succ b => right; exact ih.mpr ⟨b, by simpa using ha⟩

theorem findLit_iff {p s : List Char} :
    (findLit p s).isSome = true ↔ ∃ a, litHere p (s.drop a) = true := by
  induction s with
  | nil =>
    rw [findLit]
    by_cases h : litHere p [] = true
    · rw [if_pos h]
      simp only [Option.isSome_some, true_iff]
      exact ⟨0, by simpa using h⟩
    · rw [if_neg h]
      simp only [Option.isSome_none]
      constructor
      · intro hx; exact absurd hx (by simp)
      · rintro ⟨a, ha⟩
        rw [List.drop_nil] at ha
        exact absurd ha h
  | cons c t ih =>
    rw [findLit]
    by_cases h : litHere p (c :: t) = true
    · rw [if_pos h]
      simp only [Option.isSome_some, true_iff]
      exact ⟨0, by simpa using h⟩
    · rw [if_neg h]
      have hmap : (Option.map (fun x => x + 1) (findLit p t)).isSome = (findLit p t).isSome := by
        cases findLit p t <;> rfl
      rw [hmap, ih]
      constructor
      · rintro ⟨a, ha⟩
        exact ⟨a + 1, by simpa using ha⟩
      · rintro ⟨a, ha⟩
        cases a with
        | zero => exact absurd (by simpa using ha) h
        | succ b => exact ⟨b, by simpa using ha⟩

theorem findChar_spec {ch : Char} : ∀ {l : List Char} {k : Nat},
    findChar ch l = some k → l.get? k = some ch := by
  intro l
  induction l with
  | nil => intro k h; simp [findChar] at h
  | cons c t ih =>
    intro k h
    by_cases hc : c = ch
    · simp only [findChar, hc, if_pos rfl] at h
      cases h
      simp [hc]
    · simp only [findChar, hc, if_false, Option.map_eq_some'] at h
      obtain ⟨k2, hk2, rfl⟩ := h
      simpa using ih hk2

theorem lastLitIdx_spec {p : List Char} : ∀ {s : List Char} {k : Nat},
    lastLitIdx p s = some k → litHere p (s.drop k) = true := by
  intro s
  induction s with
  | nil =>
    intro k h
    rw [lastLitIdx] at h
    by_cases hl : litHere p [] = true
    · rw [if_pos hl] at h
      cases h
      simpa using hl
    · rw [if_neg hl] at h
      exact absurd h (by simp)
  | cons c t ih =>
    intro k h
    rw [lastLitIdx] at h
    cases hm : lastLitIdx p t with
    | some k2 =>
      simp only [hm] at h
      cases h
      simpa using ih hm
    | none =>
      simp only [hm] at h
      by_cases hl : litHere p (c :: t) = true
      · rw [if_pos hl] at h
        cases h
        simpa using hl
      · rw [if_neg hl] at h
        exact absurd h (by simp)

theorem blockMatch_spec {s : List Char} {j : Nat}
    (h : blockMatch s = some j) : s.get? j = some ('\x7d') := by
  simp only [blockMatch] at h
  cases hf : findLit dgLit s with
  | none => rw [hf] at h; exact absurd h (by simp)
  | some p =>
    rw [hf] at h
    simp only [Option.map_eq_some'] at h
    obtain ⟨k, hk, rfl⟩ := h
    have := findChar_spec hk
    rw [List.get?_drop] at this
    rw [Nat.add_comm (p + dgLit.length) k] at this
    exact this

theorem toNat_ofNat_small {x : Nat} (h : x < 55296) : (Char.ofNat x).toNat = x := by
  have hv : x.isValidChar := Or.inl h
  simp [Char.ofNat, hv]
  rfl

theorem ciEq_wordChar {d c : Char} (hd : isWordChar d = true) (h : ciEq d c = true) :
    isWordChar c = true := by
  simp only [ciEq, upNat, decide_eq_true_eq] at h
  simp only [isWordChar, Bool.or_eq_true, Bool.and_eq_true, decide_eq_true_eq,
    isUpperAZ, isDigit09] at hd ⊢
  split_ifs at h <;> omega

theorem nameChar_wordChar {c : Char} (h : isNameChar c = true) : isWordChar c = true := by
  simp only [isNameChar, isWordChar, isUpperAZ, isDigit09, Bool.or_eq_true,
    Bool.and_eq_true, decide_eq_true_eq] at h ⊢
  omega

theorem ciEq_nameChar_not_ws {d c : Char} (hd : isNameChar d = true) (h : ciEq d c = true) :
    isWS c = false := by
  simp only [ciEq, upNat, decide_eq_true_eq] at h
  simp only [isNameChar, isUpperAZ, isDigit09, Bool.or_eq_true, Bool.and_eq_true,
    decide_eq_true_eq] at hd
  rw [Bool.eq_false_iff]
  intro hc
  simp only [isWS, Bool.or_eq_true, decide_eq_true_eq] at hc
  split_ifs at h <;> omega

theorem upChar_nameChar {c : Char} (h : isWordChar c = true) :
    isNameChar (Char.ofNat (upNat c.toNat)) = true := by
  simp only [isWordChar, isUpperAZ, isDigit09, Bool.or_eq_true, Bool.and_eq_true,
    decide_eq_true_eq] at h
  by_cases hl : 97 ≤ c.toNat ∧ c.toNat ≤ 122
  · have he : upNat c.toNat = c.toNat - 32 := by rw [upNat, if_pos hl]
    have hc : c.toNat < 55296 := by
      have := c.val.toNat_lt
      omega
    have ht : (Char.ofNat (c.toNat - 32)).toNat = c.toNat - 32 :=
      toNat_ofNat_small (by omega)
    rw [he]
    simp only [isNameChar, isUpperAZ, isDigit09, Bool.or_eq_true, Bool.and_eq_true,
      decide_eq_true_eq]
    rw [ht]
    omega
  · have he : upNat c.toNat = c.toNat := by rw [upNat, if_neg hl]
    rw [he, Char.ofNat_toNat]
    simp only [isNameChar, isUpperAZ, isDigit09, Bool.or_eq_true, Bool.and_eq_true,
      decide_eq_true_eq]
    omega

theorem validMode_validName {m : String} (h : validMode m = true) :
    validName (upperL m.toList) = true := by
  simp only [validMode, Bool.and_eq_true, Bool.not_eq_true'] at h
  simp only [validName, Bool.and_eq_true, Bool.not_eq_true']
  constructor
  · cases hm : m.toList with
    | nil => rw [hm] at h; simp at h
    | cons c t => simp [upperL, hm]
  · rw [List.all_eq_true]
    intro x hx
    simp only [upperL, List.mem_map] at hx
    obtain ⟨c, hc, rfl⟩ := hx
    exact upChar_nameChar ((List.all_eq_true.mp h.2) c hc)

/-- Computation of the declaration regex on input presented in its matched
shape: a case-insensitive `function` literal, a non-empty whitespace run,
a case-insensitive copy of the name, a whitespace run, `(`. -/
theorem declHereLen_of_anatomy {n A B C D R : List Char} (hn : validName n = true)
    (hA : A.length = funLit.length) (hfA : litHereCI funLit A = true)
    (hB : B.all isWS = true) (hBpos : B ≠ [])
    (hC : C.length = n.length) (hnC : litHereCI n C = true)
    (hD : D.all isWS = true) :
    declHereLen n (A ++ (B ++ (C ++ (D ++ ('(') :: R)))) =
      some (funLit.length + B.length + n.length + D.length + 1) := by
  have hnne : n ≠ [] := by
    simp only [validName, Bool.and_eq_true, Bool.not_eq_true'] at hn
    intro hx
    rw [hx] at hn
    simp at hn
  have hCne : C ≠ [] := by
    intro hx
    rw [hx] at hC
    cases n with
    | nil => exact hnne rfl
    | cons a b => simp at hC
  obtain ⟨c0, C', rfl⟩ : ∃ c0 C', C = c0 :: C' := by
    cases C with
    | nil => exact absurd rfl hCne
    | cons a b => exact ⟨a, b, rfl⟩
  have hc0 : isWS c0 = false := by
    cases n with
    | nil => exact absurd rfl hnne
    | cons n0 n' =>
      simp only [litHereCI, Bool.and_eq_true] at hnC
      have hn0 : isNameChar n0 = true := by
        simp only [validName, Bool.and_eq_true, List.all_cons] at hn
        exact hn.2.1
      exact ciEq_nameChar_not_ws hn0 hnC.1
  have hf : litHereCI funLit (A ++ (B ++ ((c0 :: C') ++ (D ++ ('(') :: R)))) = true :=
    litHereCI_append _ hfA
  have hT1 : (A ++ (B ++ ((c0 :: C') ++ (D ++ ('(') :: R)))).drop funLit.length
      = B ++ ((c0 :: C') ++ (D ++ ('(') :: R)) := by
    rw [← hA]
    exact List.drop_left A _
  have hw : wsCount (B ++ ((c0 :: C') ++ (D ++ ('(') :: R))) = B.length := by
    have h2 := wsCount_exact (w := B) (d := c0) (r := C' ++ (D ++ ('(') :: R)) hB hc0
    simpa using h2
  have hT2 : (B ++ ((c0 :: C') ++ (D ++ ('(') :: R))).drop B.length
      = (c0 :: C') ++ (D ++ ('(') :: R) := List.drop_left B _
  have hX2 : litHereCI n ((c0 :: C') ++ (D ++ ('(') :: R)) = true := litHereCI_append _ hnC
  have hT3 : ((c0 :: C') ++ (D ++ ('(') :: R)).drop n.length = D ++ ('(') :: R := by
    rw [← hC]
    exact List.drop_left (c0 :: C') _
  have hw2 : wsCount (D ++ ('(') :: R) = D.length := wsCount_exact hD (by decide)
  have hT4 : (D ++ ('(') :: R).drop D.length = ('(') :: R := List.drop_left D _
  have hBlen : ¬(B.length = 0) := by simpa using hBpos
  simp only [declHereLen]
  rw [hT1, hw, hT2, hT3, hw2, hT4]
  simp [hBlen]
  constructor
  · simpa using hf
  · simpa using hX2

/-- Decomposition of a successful declaration-regex match into its parts. -/
theorem declHereLen_anatomy {n t : List Char} {L : Nat}
    (h : declHereLen n t = some L) :
    ∃ A B C D R, t = A ++ (B ++ (C ++ (D ++ ('(') :: R))) ∧
      A.length = funLit.length ∧ litHereCI funLit A = true ∧
      B.all isWS = true ∧ B ≠ [] ∧
      C.length = n.length ∧ litHereCI n C = true ∧
      D.all isWS = true ∧
      L = funLit.length + B.length + n.length + D.length + 1 := by
  simp only [declHereLen] at h
  by_cases hf : litHereCI funLit t = true
  swap
  · rw [if_neg hf] at h
    exact absurd h (by simp)
  rw [if_pos hf] at h
  set t1 := t.drop funLit.length with ht1
  set w := wsCount t1 with hwdef
  by_cases hw0 : w = 0
  · rw [if_pos hw0] at h
    exact absurd h (by simp)
  rw [if_neg hw0] at h
  set t2 := t1.drop w with ht2
  by_cases hnC : litHereCI n t2 = true
  swap
  · rw [if_neg hnC] at h
    exact absurd h (by simp)
  rw [if_pos hnC] at h
  set t3 := t2.drop n.length with ht3
  set w2 := wsCount t3 with hw2def
  cases hh : (t3.drop w2).head? with
  | none =>
    simp only [hh] at h
    exact absurd h (by simp)
  | some c =>
    simp only [hh] at h
    by_cases hc : c = ('(')
    swap
    · rw [if_neg hc] at h
      exact absurd h (by simp)
    rw [if_pos hc] at h
    have hL : L = funLit.length + w + n.length + w2 + 1 := (Option.some.inj h).symm
    obtain ⟨R, hR⟩ : ∃ R, t3.drop w2 = ('(') :: R := by
      cases hl : t3.drop w2 with
      | nil => rw [hl] at hh; simp at hh
      | cons x xs =>
        rw [hl] at hh
        simp only [List.head?_cons, Option.some.injEq] at hh
        exact ⟨xs, by rw [hh, hc]⟩
    have hfl : funLit.length ≤ t.length := litHereCI_le hf
    have hw_le : w ≤ t1.length := by rw [hwdef]; exact wsCount_le t1
    have hn_le : n.length ≤ t2.length := litHereCI_le hnC
    have hw2_le : w2 ≤ t3.length := by rw [hw2def]; exact wsCount_le t3
    have hd0 : t = t.take funLit.length ++ t1 := by
      rw [ht1]
      exact (List.take_append_drop _ _).symm
    have hd1 : t1 = t1.take w ++ t2 := by
      rw [ht2]
      exact (List.take_append_drop _ _).symm
    have hd2 : t2 = t2.take n.length ++ t3 := by
      rw [ht3]
      exact (List.take_append_drop _ _).symm
    have hd3 : t3 = t3.take w2 ++ (('(') :: R) := by
      rw [← hR]
      exact (List.take_append_drop _ _).symm
    have hAlen : (t.take funLit.length).length = funLit.length := by
      rw [List.length_take]
      exact Nat.min_eq_left hfl
    have hBlen : (t1.take w).length = w := by
      rw [List.length_take]
      exact Nat.min_eq_left hw_le
    have hClen : (t2.take n.length).length = n.length := by
      rw [List.length_take]
      exact Nat.min_eq_left hn_le
    have hDlen : (t3.take w2).length = w2 := by
      rw [List.length_take]
      exact Nat.min_eq_left hw2_le
    refine ⟨t.take funLit.length, t1.take w, t2.take n.length, t3.take w2, R,
      ?_, hAlen, ?_, ?_, ?_, hClen, ?_, ?_, ?_⟩
    · calc t = t.take funLit.length ++ t1 := hd0
        _ = t.take funLit.length ++ (t1.take w ++ t2) := by rw [← hd1]
        _ = t.take funLit.length ++ (t1.take w ++ (t2.take n.length ++ t3)) := by rw [← hd2]
        _ = t.take funLit.length ++ (t1.take w ++ (t2.take n.length ++
              (t3.take w2 ++ (('(') :: R)))) := by rw [← hd3]
    · have hf2 := hf
      rw [hd0] at hf2
      exact litHereCI_of_append (by rw [hAlen]) hf2
    · rw [List.all_eq_true]
      intro ch hch
      have := wsTake_all t1
      rw [← hwdef] at this
      exact this ch hch
    · intro hx
      have := congrArg List.length hx
      rw [hBlen] at this
      simp at this
      exact hw0 this
    · have hn2 := hnC
      rw [hd2] at hn2
      exact litHereCI_of_append (by rw [hClen]) hn2
    · rw [List.all_eq_true]
      intro ch hch
      have := wsTake_all t3
      rw [← hw2def] at this
      exact this ch hch
    · rw [hL, hBlen, hDlen]

theorem declTest_append_right {n X Y : List Char} (h : declTest n Y = true) :
    declTest n (X ++ Y) = true := by
  induction X with
  | nil => simpa using h
  | cons c t ih =>
    simp only [List.cons_append, declTest, Bool.or_eq_true]
    right
    exact ih

theorem declTest_append_left {n X Y : List Char} (hn : validName n = true)
    (h : declTest n X = true) : declTest n (X ++ Y) = true := by
  obtain ⟨a, ha⟩ := declTest_iff.mp h
  obtain ⟨L, hL⟩ : ∃ L, declHereLen n (X.drop a) = some L := by
    cases hx : declHereLen n (X.drop a) with
    | none => rw [hx] at ha; simp at ha
    | some L => exact ⟨L, rfl⟩
  obtain ⟨A, B, C, D, R, ht, hA, hfA, hB, hBne, hC, hnC, hD, hLen⟩ := declHereLen_anatomy hL
  apply declTest_iff.mpr
  refine ⟨a, ?_⟩
  have ha_le : a ≤ X.length := by
    by_contra hx
    push_neg at hx
    rw [List.drop_eq_nil_of_le (le_of_lt hx)] at ht
    have := congrArg List.length ht
    simp [List.length_append] at this
    omega
  rw [List.drop_append_of_le_length ha_le, ht]
  have hmass : (A ++ (B ++ (C ++ (D ++ ('(') :: R)))) ++ Y
      = A ++ (B ++ (C ++ (D ++ ('(') :: (R ++ Y)))) := by
    simp [List.append_assoc]
  rw [hmass, declHereLen_of_anatomy hn hA hfA hB hBne hC hnC hD]
  rfl

/-- A text containing `function <NAME>(` declares `<NAME>`. -/
theorem declTest_of_contains {n X R : List Char} (hn : validName n = true) :
    declTest n (X ++ (("function ").toList ++ (n ++ ('(') :: R))) = true := by
  apply declTest_append_right
  apply declTest_iff.mpr
  refine ⟨0, ?_⟩
  simp only [List.drop_zero]
  have hsplit : ("function ").toList = funLit ++ [(' ')] := by decide
  have hshape : ("function ").toList ++ (n ++ ('(') :: R)
      = funLit ++ ([(' ')] ++ (n ++ ([] ++ ('(') :: R))) := by
    rw [hsplit]
    simp [List.append_assoc]
  rw [hshape]
  have hfself : litHereCI funLit funLit = true := by
    have := litHereCI_self funLit []
    rwa [List.append_nil] at this
  have hnself : litHereCI n n = true := by
    have := litHereCI_self n []
    rwa [List.append_nil] at this
  rw [declHereLen_of_anatomy hn rfl hfself (by decide) (by decide) rfl hnself (by decide)]
  rfl

/-- The registry insertions happen immediately before a `}` or immediately
before an `export {};` literal; a declaration match cannot straddle such a
point, so every declaration surviving in the text still matches after the
splice. -/
theorem declTest_insertAt {n s ins : List Char} {j : Nat} (hn : validName n = true)
    (h : declTest n s = true)
    (hsafe : s.get? j = some ('\x7d') ∨ litHere exportLit (s.drop j) = true) :
    declTest n (insertAt j ins s) = true := by
  have hnall : n.all isNameChar = true := by
    simp only [validName, Bool.and_eq_true] at hn
    exact hn.2
  obtain ⟨a, ha⟩ := declTest_iff.mp h
  obtain ⟨L, hL⟩ : ∃ L, declHereLen n (s.drop a) = some L := by
    cases hx : declHereLen n (s.drop a) with
    | none => rw [hx] at ha; simp at ha
    | some L => exact ⟨L, rfl⟩
  obtain ⟨A, B, C, D, R, ht, hA, hfA, hB, hBne, hC, hnC, hD, hLen⟩ := declHereLen_anatomy hL
  have hER : s.drop a = (A ++ B ++ C ++ D ++ [('(')]) ++ R := by
    rw [ht]
    simp [List.append_assoc]
  set E := A ++ B ++ C ++ D ++ [('(')] with hEdef
  have hElen : E.length = L := by
    rw [hEdef]
    simp only [List.length_append, List.length_cons, List.length_nil, List.length_singleton]
    omega
  have hL1 : 1 ≤ L := by omega
  have hlen2 : s.length - a = L + R.length ∧ a < s.length := by
    have := congrArg List.length hER
    simp only [List.length_drop, List.length_append] at this
    constructor
    · omega
    · omega
  have haL : a + L ≤ s.length := by omega
  by_cases hcase1 : a + L ≤ j
  · -- the whole match lies before the insertion point
    apply declTest_iff.mpr
    refine ⟨a, ?_⟩
    have h1 : (insertAt j ins s).drop a = (s.take j).drop a ++ (ins ++ s.drop j) := by
      rw [insertAt, List.append_assoc]
      exact List.drop_append_of_le_length
        (by rw [List.length_take]; exact Nat.le_min.mpr ⟨by omega, by omega⟩)
    have h2 : (s.take j).drop a = (s.drop a).take (j - a) := List.drop_take j a s
    have h3 : (s.drop a).take (j - a) = E ++ R.take (j - a - L) := by
      rw [hER]
      have hidx : j - a = E.length + (j - a - L) := by rw [hElen]; omega
      conv_lhs => rw [hidx]
      rw [List.take_append]
    rw [h1, h2, h3]
    have hmass : (E ++ R.take (j - a - L)) ++ (ins ++ s.drop j)
        = A ++ (B ++ (C ++ (D ++ ('(') :: (R.take (j - a - L) ++ (ins ++ s.drop j))))) := by
      rw [hEdef]
      simp [List.append_assoc]
    rw [hmass, declHereLen_of_anatomy hn hA hfA hB hBne hC hnC hD]
    rfl
  · by_cases hcase2 : j ≤ a
    · -- the whole match lies after the insertion point
      apply declTest_iff.mpr
      refine ⟨a + ins.length, ?_⟩
      have hlen_take : (s.take j).length = j := by
        rw [List.length_take]
        exact Nat.min_eq_left (by omega)
      have h1 : a + ins.length = (s.take j).length + (ins.length + (a - j)) := by
        rw [hlen_take]
        omega
      rw [insertAt, List.append_assoc, h1, List.drop_append, List.drop_append,
        List.drop_drop]
      have hidx : j + (a - j) = a := by omega
      rw [hidx, hL]
      rfl
    · -- the insertion point would be inside the match: impossible
      exfalso
      have hfun : ∀ d ∈ funLit, isWordChar d = true := by decide
      have hchar : ∀ k, k < L → s.get? (a + k) = E.get? k := by
        intro k hk
        have h1 : (s.drop a).get? k = s.get? (a + k) := List.get?_drop s a k
        rw [← h1, hER]
        exact List.get?_append (by rw [hElen]; omega)
      have hEgood : ∀ ch ∈ E, isWS ch = true ∨ isWordChar ch = true ∨ ch = ('(') := by
        rw [hEdef]
        intro ch hch
        simp only [List.mem_append, List.mem_singleton] at hch
        rcases hch with (((hch | hch) | hch) | hch) | hch
        · obtain ⟨d, hd, hci⟩ := litHereCI_mem hfA (le_of_eq hA) ch hch
          exact Or.inr (Or.inl (ciEq_wordChar (hfun d hd) hci))
        · exact Or.inl ((List.all_eq_true.mp hB) ch hch)
        · obtain ⟨d, hd, hci⟩ := litHereCI_mem hnC (le_of_eq hC) ch hch
          have hdn : isNameChar d = true := (List.all_eq_true.mp hnall) d hd
          exact Or.inr (Or.inl (ciEq_wordChar (nameChar_wordChar hdn) hci))
        · exact Or.inl ((List.all_eq_true.mp hD) ch hch)
        · exact Or.inr (Or.inr hch)
      rcases hsafe with hbr | hexp
      · have hk := hchar (j - a) (by omega)
        have hidx : a + (j - a) = j := by omega
        rw [hidx, hbr] at hk
        have hmem : ('\x7d') ∈ E := List.get?_mem hk.symm
        rcases hEgood _ hmem with hx | hx | hx
        · exact absurd hx (by decide)
        · exact absurd hx (by decide)
        · exact absurd hx (by decide)
      · by_cases hdeep : j + 7 < a + L
        · have hbrace : s.get? (j + 7) = some ('\x7b') := by
            have h7 := litHere_get hexp (k := 7) (by decide)
            rw [List.get?_drop] at h7
            rw [h7]
            decide
          have hk := hchar (j + 7 - a) (by omega)
          have hidx : a + (j + 7 - a) = j + 7 := by omega
          rw [hidx, hbrace] at hk
          have hmem : ('\x7b') ∈ E := List.get?_mem hk.symm
          rcases hEgood _ hmem with hx | hx | hx
          · exact absurd hx (by decide)
          · exact absurd hx (by decide)
          · exact absurd hx (by decide)
        · have hlast : s.get? (a + (L - 1)) = E.get? (L - 1) := hchar (L - 1) (by omega)
          have hEget : E.get? (L - 1) = some ('(') := by
            have hE2 : E = (A ++ B ++ C ++ D) ++ [('(')] := by
              rw [hEdef]
            rw [hE2]
            have hidx : L - 1 = (A ++ B ++ C ++ D).length := by
              have := hElen
              rw [hEdef] at this
              simp only [List.length_append, List.length_singleton] at this ⊢
              omega
            rw [hidx]
            exact List.get?_concat_length _ _
          have hi7 : a + L - 1 - j < 7 := by omega
          have hexpg := litHere_get hexp (k := a + L - 1 - j) (by
            have : exportLit.length = 10 := by decide
            omega)
          rw [List.get?_drop] at hexpg
          have hidx : j + (a + L - 1 - j) = a + (L - 1) := by omega
          rw [hidx, hlast, hEget] at hexpg
          set i := a + L - 1 - j with hidef
          interval_cases i <;> exact absurd hexpg (by decide)

/-- Stub search is preserved by appending on the right of existing text. -/
theorem stubTest_append_left {m X Y : List Char} (h : stubTest m X = true) :
    stubTest m (X ++ Y) = true := by
  simp only [stubTest] at h ⊢
  obtain ⟨a, ha⟩ := findLit_iff.mp h
  obtain ⟨r, hr⟩ := litHere_iff_append.mp ha
  apply findLit_iff.mpr
  refine ⟨a, ?_⟩
  have ha_le : a ≤ X.length := by
    by_contra hx
    push_neg at hx
    rw [List.drop_eq_nil_of_le (le_of_lt hx)] at hr
    have h2 := hr.symm
    rw [List.append_eq_nil] at h2
    have h3 := h2.1
    rw [stubLit, List.append_eq_nil] at h3
    exact absurd h3.2 (by decide)
  rw [List.drop_append_of_le_length ha_le, hr, List.append_assoc]
  exact litHere_self _ _

/-- Stub search is preserved by prepending on the left of existing text. -/
theorem stubTest_append_right {m X Y : List Char} (h : stubTest m Y = true) :
    stubTest m (X ++ Y) = true := by
  simp only [stubTest] at h ⊢
  obtain ⟨a, ha⟩ := findLit_iff.mp h
  apply findLit_iff.mpr
  refine ⟨X.length + a, ?_⟩
  rw [List.drop_append]
  exact ha

/-- The registry insertion points cannot straddle a stub line either: the
stub literal contains neither `}` nor `e`, the characters those points
start with. -/
theorem stubTest_insertAt {m s ins : List Char} {j : Nat} (hm : validName m = true)
    (h : stubTest m s = true)
    (hsafe : s.get? j = some ('\x7d') ∨ litHere exportLit (s.drop j) = true) :
    stubTest m (insertAt j ins s) = true := by
  have hmall : m.all isNameChar = true := by
    simp only [validName, Bool.and_eq_true] at hm
    exact hm.2
  simp only [stubTest] at h ⊢
  obtain ⟨a, ha⟩ := findLit_iff.mp h
  obtain ⟨r, hr⟩ := litHere_iff_append.mp ha
  have hlen2 : s.length - a = (stubLit m).length + r.length ∧ a < s.length := by
    have := congrArg List.length hr
    simp only [List.length_drop, List.length_append] at this
    have hpos : 0 < (stubLit m).length := by
      rw [stubLit]
      simp only [List.length_append]
      have : 0 < (("(globalThis as any).").toList).length := by decide
      omega
    constructor
    · omega
    · omega
  have haL : a + (stubLit m).length ≤ s.length := by omega
  by_cases hcase1 : a + (stubLit m).length ≤ j
  · apply findLit_iff.mpr
    refine ⟨a, ?_⟩
    have h1 : (insertAt j ins s).drop a = (s.take j).drop a ++ (ins ++ s.drop j) := by
      rw [insertAt, List.append_assoc]
      exact List.drop_append_of_le_length
        (by rw [List.length_take]; exact Nat.le_min.mpr ⟨by omega, by omega⟩)
    have h2 : (s.take j).drop a = (s.drop a).take (j - a) := List.drop_take j a s
    have h3 : (s.drop a).take (j - a) = stubLit m ++ r.take (j - a - (stubLit m).length) := by
      rw [hr]
      have hidx : j - a = (stubLit m).length + (j - a - (stubLit m).length) := by omega
      conv_lhs => rw [hidx]
      rw [List.take_append]
    rw [h1, h2, h3, List.append_assoc]
    exact litHere_self _ _
  · by_cases hcase2 : j ≤ a
    · apply findLit_iff.mpr
      refine ⟨a + ins.length, ?_⟩
      have hlen_take : (s.take j).length = j := by
        rw [List.length_take]
        exact Nat.min_eq_left (by omega)
      have h1 : a + ins.length = (s.take j).length + (ins.length + (a - j)) := by
        rw [hlen_take]
        omega
      rw [insertAt, List.append_assoc, h1, List.drop_append, List.drop_append,
        List.drop_drop]
      have hidx : j + (a - j) = a := by omega
      rw [hidx]
      exact ha
    · exfalso
      have hk : s.get? j = (stubLit m).get? (j - a) := by
        have h1 : (s.drop a).get? (j - a) = s.get? (a + (j - a)) := List.get?_drop s a (j - a)
        have hidx : a + (j - a) = j := by omega
        rw [hidx] at h1
        rw [← h1, hr]
        exact List.get?_append (by omega)
      have hmem : ∀ ch, s.get? j = some ch → ch ∈ stubLit m := by
        intro ch hch
        rw [hk] at hch
        exact List.get?_mem hch
      have hforbidden : ∀ ch, ch ∈ stubLit m → ch ≠ ('\x7d') ∧ ch ≠ ('e') := by
        intro ch hch
        rw [stubLit] at hch
        simp only [List.mem_append] at hch
        rcases hch with (hch | hch) | hch
        · constructor <;> (intro hx; rw [hx] at hch; exact absurd hch (by decide))
        · have := (List.all_eq_true.mp hmall) _ hch
          constructor <;> (intro hx; rw [hx] at this; exact absurd this (by decide))
        · constructor <;> (intro hx; rw [hx] at hch; exact absurd hch (by decide))
      rcases hsafe with hbr | hexp
      · exact (hforbidden _ (hmem _ hbr)).1 rfl
      · have he : s.get? j = some ('e') := by
          have h0 := litHere_get hexp (k := 0) (by decide)
          rw [List.get?_drop] at h0
          have hidx : j + 0 = j := by omega
          rw [hidx] at h0
          rw [h0]
          decide
        exact (hforbidden _ (hmem _ he)).2 rfl

/- ------------------------------------------------------------------ -/
/- Behaviour of the registry mutations                                 -/
/- ------------------------------------------------------------------ -/

theorem insertDecl_declares {n c : List Char} (hn : validName n = true) :
    declTest n (insertDecl n c) = true := by
  have hsplit1 : ("  function ").toList = ("  ").toList ++ ("function ").toList := by decide
  have hsplit2 : ("(message: string): void;\n").toList
      = ('(') :: ("message: string): void;\n").toList := by decide
  cases hb : blockMatch c with
  | some j =>
    simp only [insertDecl, hb]
    have hshape : insertAt j (declLineFor n) c
        = (c.take j ++ ("  ").toList) ++ (("function ").toList ++ (n ++ ('(') ::
            (("message: string): void;\n").toList ++ c.drop j))) := by
      rw [insertAt, declLineFor, hsplit1, hsplit2]
      simp [List.append_assoc]
    rw [hshape]
    exact declTest_of_contains hn
  | none =>
    simp only [insertDecl, hb]
    have hshape : newBlockFor n ++ c
        = (("\ndeclare global \x7b\n").toList ++ ("  ").toList) ++ (("function ").toList ++
            (n ++ ('(') :: (("message: string): void;\n").toList ++
              (("\x7d\n").toList ++ c)))) := by
      rw [newBlockFor, declLineFor, hsplit1, hsplit2]
      simp [List.append_assoc]
    rw [hshape]
    exact declTest_of_contains hn

theorem insertDecl_preserves_decl {n m c : List Char} (hm : validName m = true)
    (h : declTest m c = true) : declTest m (insertDecl n c) = true := by
  cases hb : blockMatch c with
  | some j =>
    simp only [insertDecl, hb]
    exact declTest_insertAt hm h (Or.inl (blockMatch_spec hb))
  | none =>
    simp only [insertDecl, hb]
    exact declTest_append_right h

theorem insertDecl_preserves_stub {n m c : List Char} (hm : validName m = true)
    (h : stubTest m c = true) : stubTest m (insertDecl n c) = true := by
  cases hb : blockMatch c with
  | some j =>
    simp only [insertDecl, hb]
    exact stubTest_insertAt hm h (Or.inl (blockMatch_spec hb))
  | none =>
    simp only [insertDecl, hb]
    exact stubTest_append_right h

theorem insertStub_preserves_decl {n m cA : List Char} (hm : validName m = true)
    (h : declTest m cA = true) : declTest m (insertStub n cA) = true := by
  cases he : lastLitIdx exportLit cA with
  | some e =>
    simp only [insertStub, he]
    exact declTest_insertAt hm h (Or.inr (lastLitIdx_spec he))
  | none =>
    simp only [insertStub, he]
    exact declTest_append_left hm (declTest_append_left hm h)

theorem insertStub_preserves_stub {n m cA : List Char} (hm : validName m = true)
    (h : stubTest m cA = true) : stubTest m (insertStub n cA) = true := by
  cases he : lastLitIdx exportLit cA with
  | some e =>
    simp only [insertStub, he]
    exact stubTest_insertAt hm h (Or.inr (lastLitIdx_spec he))
  | none =>
    simp only [insertStub, he]
    exact stubTest_append_left (stubTest_append_left h)

theorem insertStub_stub {n cA : List Char} : stubTest n (insertStub n cA) = true := by
  cases he : lastLitIdx exportLit cA with
  | some e =>
    simp only [insertStub, he, stubTest]
    apply findLit_iff.mpr
    refine ⟨(cA.take e).length, ?_⟩
    rw [insertAt, List.append_assoc, List.drop_left, runtimeImplFor, List.append_assoc]
    exact litHere_self _ _
  | none =>
    simp only [insertStub, he, stubTest]
    apply findLit_iff.mpr
    refine ⟨cA.length, ?_⟩
    rw [List.append_assoc, List.drop_left, runtimeImplFor, List.append_assoc]
    exact litHere_self _ _

theorem addModeTo_declares {n c : List Char} (hn : validName n = true) :
    declTest n (addModeTo n c) = true := by
  rw [addModeTo]
  exact insertStub_preserves_decl hn (insertDecl_declares hn)

theorem addModeTo_preserves_decl {n m c : List Char} (hm : validName m = true)
    (h : declTest m c = true) : declTest m (addModeTo n c) = true := by
  rw [addModeTo]
  exact insertStub_preserves_decl hm (insertDecl_preserves_decl hm h)

theorem addModeTo_preserves_stub {n m c : List Char} (hm : validName m = true)
    (h : stubTest m c = true) : stubTest m (addModeTo n c) = true := by
  rw [addModeTo]
  exact insertStub_preserves_stub hm (insertDecl_preserves_stub hm h)

theorem addModeTo_stub {n c : List Char} : stubTest n (addModeTo n c) = true := by
  rw [addModeTo]
  exact insertStub_stub

theorem default_declares_all : declTest allName defaultContent = true := by decide

theorem default_stub_all : stubTest allName defaultContent = true := by decide

theorem validName_all : validName allName = true := by decide

theorem artifactOk_read {fs : Option (List Char)} (h : artifactOk fs = true) :
    declTest allName (readContent fs) = true := by
  cases fs with
  | none => exact default_declares_all
  | some c => exact h

/-- When the mode is already declared and the artifact declares `ALL`, the
call performs no mutation and no write. -/
theorem ensure_noop {m : String} {fs : Option (List Char)}
    (h1 : declTest (upperL m.toList) (readContent fs) = true)
    (h2 : declTest allName (readContent fs) = true) :
    ensureModeFunction m fs = some fs := by
  simp only [ensureModeFunction]
  rw [if_pos h1]
  dsimp only
  rw [if_pos h2]

/-- One `ensureModeFunction` call on a valid artifact returns normally,
keeps the artifact valid, declares the upper-cased mode, and removes no
existing declaration or stub. -/
theorem ensure_step (m : String) (fs0 : Option (List Char)) (hm : validMode m = true)
    (h0 : artifactOk fs0 = true) :
    ∃ fs1, ensureModeFunction m fs0 = some fs1 ∧ artifactOk fs1 = true ∧
      declTest (upperL m.toList) (readContent fs1) = true ∧
      (∀ n, validName n = true →
        (declTest n (readContent fs0) = true → declTest n (readContent fs1) = true) ∧
        (stubTest n (readContent fs0) = true → stubTest n (readContent fs1) = true)) := by
  have hvn : validName (upperL m.toList) = true := validMode_validName hm
  have hAll0 : declTest allName (readContent fs0) = true := artifactOk_read h0
  by_cases hd : declTest (upperL m.toList) (readContent fs0) = true
  · exact ⟨fs0, ensure_noop hd hAll0, h0, hd, fun n _ => ⟨id, id⟩⟩
  · refine ⟨some (addModeTo (upperL m.toList) (readContent fs0)), ?_, ?_, ?_, ?_⟩
    · simp only [ensureModeFunction]
      rw [if_neg hd]
      dsimp only
      rw [if_pos (addModeTo_preserves_decl validName_all hAll0)]
    · exact addModeTo_preserves_decl validName_all hAll0
    · exact addModeTo_declares hvn
    · intro n hn
      exact ⟨fun h => addModeTo_preserves_decl hn h, fun h => addModeTo_preserves_stub hn h⟩

/- ------------------------------------------------------------------ -/
/- Claims about the Mode Registry                                      -/
/- ------------------------------------------------------------------ -/

/-- C4: for every sequence of `ensureModeFunction` calls against a
declarations artifact (absent, or declaring the always mode `ALL` as the
data model requires), the final artifact declares every mode name ever
passed in (upper-cased) plus the always literal `ALL`, and no call ever
removes an existing declaration or stub. -/
theorem registry_superset (ms : List String) : ∀ (fs0 : Option (List Char)),
    (∀ m ∈ ms, validMode m = true) → artifactOk fs0 = true →
    ∃ fs1, ensureSeq ms fs0 = some fs1 ∧
      (∀ m ∈ ms, declTest (upperL m.toList) (readContent fs1) = true) ∧
      declTest allName (readContent fs1) = true ∧
      (∀ n, validName n = true →
        (declTest n (readContent fs0) = true → declTest n (readContent fs1) = true) ∧
        (stubTest n (readContent fs0) = true → stubTest n (readContent fs1) = true)) := by
  induction ms with
  | nil =>
    intro fs0 hv h0
    exact ⟨fs0, rfl, by simp, artifactOk_read h0, fun n _ => ⟨id, id⟩⟩
  | cons m ms ih =>
    intro fs0 hv h0
    have hm : validMode m = true := hv m (List.mem_cons_self _ _)
    obtain ⟨fs1, he1, hok1, hd1, hpres1⟩ := ensure_step m fs0 hm h0
    obtain ⟨fs2, he2, hsup2, hall2, hpres2⟩ :=
      ih fs1 (fun x hx => hv x (List.mem_cons_of_mem _ hx)) hok1
    refine ⟨fs2, ?_, ?_, hall2, ?_⟩
    · simp only [ensureSeq, he1]
      exact he2
    · intro x hx
      rcases List.mem_cons.mp hx with rfl | hx2
      · exact (hpres2 (upperL x.toList) (validMode_validName hm)).1 hd1
      · exact hsup2 x hx2
    · intro n hn
      exact ⟨fun h => (hpres2 n hn).1 ((hpres1 n hn).1 h),
        fun h => (hpres2 n hn).2 ((hpres1 n hn).2 h)⟩

/-- C4 witness: registering `staging` once against an absent artifact. -/
theorem registry_superset_witness :
    ∃ fs1, ensureSeq [("staging")] none = some fs1 ∧
      (∀ m ∈ [("staging")], declTest (upperL m.toList) (readContent fs1) = true) ∧
      declTest allName (readContent fs1) = true ∧
      (∀ n, validName n = true →
        (declTest n (readContent (none : Option (List Char))) = true →
          declTest n (readContent fs1) = true) ∧
        (stubTest n (readContent (none : Option (List Char))) = true →
          stubTest n (readContent fs1) = true)) :=
  registry_superset [("staging")] none (by decide) (by decide)

/-- C5: `ensureModeFunction` is idempotent on declarations artifacts: a
second call with the same mode name performs no further mutation and no
write, returning the artifact state produced by the first call unchanged. -/
theorem registry_idempotent (m : String) (fs0 fs1 : Option (List Char))
    (hm : validMode m = true) (h0 : artifactOk fs0 = true)
    (h1 : ensureModeFunction m fs0 = some fs1) :
    ensureModeFunction m fs1 = some fs1 := by
  obtain ⟨fs1x, he, hok, hd, _⟩ := ensure_step m fs0 hm h0
  rw [h1] at he
  cases he
  exact ensure_noop hd (artifactOk_read hok)

/-- C5 witness: registering `all` against an absent artifact twice. -/
theorem registry_idempotent_witness :
    ensureModeFunction ("all") none = some none :=
  registry_idempotent ("all") none none (by decide) (by decide) (by decide)

/-- C10: when the artifact file is absent and the mode upper-cases to
`ALL`, the synthesised default content already contains the `ALL`
declaration and stub, both existence checks pass, and the call performs no
write: the file stays absent. -/
theorem absent_artifact_all_no_write (m : String) (h : upperL m.toList = allName) :
    declTest allName defaultContent = true ∧ stubTest allName defaultContent = true ∧
    ensureModeFunction m none = some none := by
  refine ⟨default_declares_all, default_stub_all, ?_⟩
  apply ensure_noop
  · rw [h]
    exact default_declares_all
  · exact default_declares_all

/-- C10 witness: the mode string `all`. -/
theorem absent_artifact_all_no_write_witness :
    declTest allName defaultContent = true ∧ stubTest allName defaultContent = true ∧
    ensureModeFunction ("all") none = some none :=
  absent_artifact_all_no_write ("all") (by decide)

end VML
